import Mathlib

/-!
Verification of the Mastermind core (pattern codec, feedback scorer,
candidate set and Knuth-minimax solver) of the `mmind5` repository.

Patterns are represented, as in `gameplay.rs`, by their dense integer
index in `[0, 6^4)`; the shallow embedding keeps the source's structure:
the digit codec works on `Char` lists, the scorer on the decoded digit
arrays, and fallible operations (Rust `assert!`, `expect`, out-of-bounds
indexing) return `Option` with `none` for a panic.
-/

set_option maxRecDepth 4000
set_option linter.constructorNameAsVariable false

namespace Mmind

namespace CodePeg

/-- Model of `CodePeg::colors` of `gameplay.rs`: the game is played with six colors. -/
def colors : Nat := 6

end CodePeg

/-- Model of `KeyPegs` of `gameplay.rs`: the black/white feedback tally. -/
structure KeyPegs where
  blacks : Nat
  whites : Nat
deriving DecidableEq, Repr

namespace Pattern

/-- Model of `Pattern::size` of `gameplay.rs`: a pattern has four pegs. -/
def size : Nat := 4

/-- Model of `Pattern::cardinality` of `gameplay.rs`: `colors ^ size = 1296`. -/
def cardinality : Nat := CodePeg.colors ^ size

/-- Model of `Pattern::ith` of `gameplay.rs` (also `pattern.rs`): constructs a
pattern from a lexical index; the Rust `assert!(lex_ix <= cardinality())`
panic is modelled as `none`. -/
def ith (lex_ix : Nat) : Option Nat :=
  if lex_ix ≤ cardinality then some lex_ix else none

/-- Rust `char::to_digit(radix)`: digit value of a char if it is a valid
digit for the radix (`'0'..'9'` then `'a'..'z'`/`'A'..'Z'`), else `none`. -/
def charToDigit (c : Char) (radix : Nat) : Option Nat :=
  let v : Option Nat :=
    if '0' ≤ c ∧ c ≤ '9' then some (c.toNat - '0'.toNat)
    else if 'a' ≤ c ∧ c ≤ 'z' then some (c.toNat - 'a'.toNat + 10)
    else if 'A' ≤ c ∧ c ≤ 'Z' then some (c.toNat - 'A'.toNat + 10)
    else none
  match v with
  | some d => if d < radix then some d else none
  | none => none

/-- Model of `Pattern::from_digits` of `gameplay.rs`: encode four digit characters
most-significant first; `digits[pos].to_digit(6).unwrap_or(1) - 1` per
position.  (The Rust source indexes a fixed `[char; 4]`; we use `getD`.
The `- 1` operates on values ≥ 1 for every digit character `'1'`..`'9'`
and for the `unwrap_or` fallback, so Nat truncation matches `u32`.) -/
def from_digits (digits : List Char) : Nat :=
  let base := CodePeg.colors
  let digit := fun (pos : Nat) => ((charToDigit (digits.getD pos '1') base).getD 1) - 1
  digit 3 + base * (digit 2 + base * (digit 1 + base * digit 0))

/-- Model of `Pattern::to_digits` of `gameplay.rs` with its four-iteration loop
unrolled: position `3 - exp` receives `'1' + (i / 6^exp) % 6`. -/
def to_digits (i : Nat) : List Char :=
  [Char.ofNat ('1'.toNat + i / 216 % 6),
   Char.ofNat ('1'.toNat + i / 36 % 6),
   Char.ofNat ('1'.toNat + i / 6 % 6),
   Char.ofNat ('1'.toNat + i % 6)]

end Pattern

namespace KeyPegs

/-- Model of `KeyPegs::win` of `gameplay.rs`: four blacks. -/
def win (k : KeyPegs) : Bool := k.blacks == Pattern.size

/-- Model of `KeyPegs::new` of `gameplay.rs`. -/
def new : KeyPegs := ⟨0, 0⟩

/-- Model of `KeyPegs::blacks` builder of `gameplay.rs`; its
`assert!(blacks + whites <= size)` panic is modelled as `none`. -/
def setBlacks (k : KeyPegs) (b : Nat) : Option KeyPegs :=
  if b + k.whites ≤ Pattern.size then some ⟨b, k.whites⟩ else none

/-- Model of `KeyPegs::whites` builder of `gameplay.rs`; its
`assert!(blacks + whites <= size)` panic is modelled as `none`. -/
def setWhites (k : KeyPegs) (w : Nat) : Option KeyPegs :=
  if k.blacks + w ≤ Pattern.size then some ⟨k.blacks, w⟩ else none

end KeyPegs

namespace Pattern

/-- The `g_used` vector of `Pattern::score` (`gameplay.rs`): the guess
positions that match the secret exactly. -/
def g_used_list (s g : List Char) : List Nat :=
  (List.range size).filter (fun pos => s.getD pos '1' == g.getD pos '1')

/-- One iteration of the white-peg scan loop of `Pattern::score`: skip a
guess position already counted black, otherwise find the first unused
secret position of the same color and mark it used. -/
def scan_step (s g : List Char) (gu : List Nat) (s_used : List Nat) (gpos : Nat) : List Nat :=
  if gu.contains gpos then s_used
  else
    match (List.range size).find? (fun spos => s.getD spos '1' == g.getD gpos '1' && !(s_used.contains spos)) with
    | some spos => s_used ++ [spos]
    | none => s_used

/-- The final `s_used` vector of `Pattern::score`: the scan loop folded
over all four guess positions, starting from `g_used`. -/
def s_used_list (s g : List Char) : List Nat :=
  (List.range size).foldl (scan_step s g (g_used_list s g)) (g_used_list s g)

/-- Model of `Pattern::score` of `gameplay.rs` (and, up to the digit/peg renaming,
`Pattern::score` of `pattern.rs`): blacks are the exact matches, whites
are the extra secret positions consumed by the color scan.  The `u8`
casts of the source cannot overflow (counts are at most 4). -/
def score (self guess : Nat) : KeyPegs :=
  let s := to_digits self
  let g := to_digits guess
  let blacks := (g_used_list s g).length
  let whites := (s_used_list s g).length - blacks
  ⟨blacks, whites⟩

/-- Model of `Pattern::score` with the `KeyPegs` builder assertions kept: the
source ends with `KeyPegs::new().blacks(b).whites(w)`, each builder
asserting `blacks + whites ≤ size`. -/
def scoreChecked (self guess : Nat) : Option KeyPegs :=
  let s := to_digits self
  let g := to_digits guess
  let blacks := (g_used_list s g).length
  let whites := (s_used_list s g).length - blacks
  (KeyPegs.new.setBlacks blacks).bind (fun k => k.setWhites whites)

end Pattern

/-- Model of `PatternSet` of `solver.rs`: a `BitSet` over pattern indexes, modelled
by a `Finset Nat`. -/
structure PatternSet where
  indexes : Finset Nat

namespace PatternSet

/-- Model of `PatternSet::all` of `solver.rs`: every index of the universe present. -/
def all : PatternSet := ⟨Finset.range Pattern.cardinality⟩

/-- Model of `PatternSet::len` of `solver.rs`: the number of members. -/
def len (ps : PatternSet) : Nat := ps.indexes.card

/-- Model of `PatternSet::contains` of `solver.rs`. -/
def contains (ps : PatternSet) (p : Nat) : Bool := p ∈ ps.indexes

/-- Model of `PatternSet::filter_with` of `solver.rs`: iterate over
`Pattern::range()` and remove every present index failing the predicate. -/
def filter_with (ps : PatternSet) (pred : Nat → Bool) : PatternSet :=
  ⟨(List.range Pattern.cardinality).foldl
    (fun acc p => if p ∈ acc ∧ pred p = false then acc.erase p else acc)
    ps.indexes⟩

end PatternSet

/-- Model of `Solver` of `solver.rs`: the codemaker oracle, the guess history, and
the candidate set `S`. -/
structure Solver where
  codemaker : Nat → KeyPegs
  guessed : List Nat
  s : PatternSet

namespace Solver

/-- Model of `Solver::possible_codes` of `solver.rs`. -/
def possible_codes : PatternSet := PatternSet.all

/-- Model of `Solver::new` of `solver.rs`. -/
def new (codemaker : Nat → KeyPegs) : Solver :=
  ⟨codemaker, [], possible_codes⟩

/-- Model of `Solver::initial_guess` of `solver.rs`: the fixed opening guess 1122. -/
def initial_guess : Nat := Pattern.from_digits ['1', '1', '2', '2']

/-- Model of `Solver::last_guess` of `solver.rs`; the `expect` on an empty history
is modelled as `none`. -/
def last_guess (sv : Solver) : Option Nat := sv.guessed.getLast?

/-- Model of `Solver::retain_same_response` of `solver.rs`: keep only candidates
that score the observed response against the last guess. -/
def retain_same_response (sv : Solver) (response : KeyPegs) : Option Solver :=
  (sv.last_guess).map (fun the_guess =>
    { sv with s := sv.s.filter_with (fun p => Pattern.score the_guess p == response) })

/-- The `guess_score` closure of `Solver::best_guesses` (`solver.rs`):
partition the candidates by the feedback they would give to `g` and
return `s.len() - highest hit count`; the `expect` on an empty hit-count
map is modelled as `none`.  The `HashMap` values are the multiplicities
of the feedback list `ds`, so their maximum is the maximum multiplicity. -/
def guess_score (sv : Solver) (g : Nat) : Option Nat :=
  let others := (List.range Pattern.cardinality).filter (fun p => sv.s.contains p)
  let ds := others.map (fun other => Pattern.score g other)
  match (ds.map (fun d => ds.count d)).max? with
  | some highest_hit_count => some (sv.s.len - highest_hit_count)
  | none => none

/-- The `highest` fold step of `Solver::best_guesses`: track the best
score seen and every pattern attaining it (in order). -/
def highest_step (sv : Solver) (acc : Nat × List Nat) (p : Nat) : Option (Nat × List Nat) :=
  (sv.guess_score p).map (fun score =>
    if score > acc.1 then (score, [p])
    else if score = acc.1 then (acc.1, acc.2 ++ [p])
    else acc)

/-- Model of `Solver::best_guesses` of `solver.rs`: assert `S` non-empty (panic
modelled as `none`), fold `highest` over the unused patterns starting
from `(0, [])`, and sort the collected maximal-score guesses. -/
def best_guesses (sv : Solver) : Option (List Nat) :=
  if sv.s.len > 0 then
    (((List.range Pattern.cardinality).filter
        (fun p => !(sv.guessed.contains p))).foldlM (highest_step sv) (0, [])).map
      (fun acc => acc.2.mergeSort (· ≤ ·))
  else none

/-- Model of `Solver::next_guess` of `solver.rs`: the first best guess that is
still a candidate, else the numerically smallest best guess
(`best_guesses[0]`, whose out-of-bounds panic is modelled as `none`). -/
def next_guess (sv : Solver) : Option Nat :=
  (sv.best_guesses).bind (fun best =>
    match best.find? (fun g => sv.s.contains g) with
    | some g => some g
    | none => best.head?)

/-- Model of `Solver::play` of `solver.rs`: emit the opening guess on an empty
history; otherwise obtain feedback on the previous guess from the
codemaker, stop on a win, else eliminate and select the next guess.
The returned pair is (result of `play`, updated solver state). -/
def play (sv : Solver) : Option (Option Nat × Solver) :=
  if sv.guessed.isEmpty then
    let guess := initial_guess
    some (some guess, { sv with guessed := sv.guessed ++ [guess] })
  else
    match sv.last_guess with
    | none => none
    | some prev =>
      let response := sv.codemaker prev
      if response.win then some (none, sv)
      else
        match sv.retain_same_response response with
        | none => none
        | some sv1 =>
          match sv1.next_guess with
          | none => none
          | some ng => some (some ng, { sv1 with guessed := sv1.guessed ++ [ng] })

end Solver

/-! ### Analysis definitions

Specification-side definitions used to state and prove the properties:
per-color tallies for the scorer, and the total (panic-free) versions of
the solver's minimax scoring. -/

namespace Pattern

/-- The six digit characters a decoded pattern can contain. -/
def colorsList : List Char := ['1', '2', '3', '4', '5', '6']

/-- Sum of a tally over the six colors. -/
def sumColors (f : Char → Nat) : Nat := (colorsList.map f).sum

/-- Positions of `x` holding color `c` that are not in `used`. -/
def avail (x : List Char) (used : List Nat) (c : Char) : Finset Nat :=
  (Finset.range size).filter (fun p => p ∉ used ∧ x.getD p '1' = c)

end Pattern

namespace Solver

/-- The unused patterns `best_guesses` iterates over, in index order. -/
def unusedList (sv : Solver) : List Nat :=
  (List.range Pattern.cardinality).filter (fun p => !(sv.guessed.contains p))

/-- The live candidates `guess_score` iterates over, in index order. -/
def candidatesList (sv : Solver) : List Nat :=
  (List.range Pattern.cardinality).filter (fun p => sv.s.contains p)

/-- The hit counts of the feedback partition of the candidate set under
guess `g` (one entry per candidate, the multiplicity of its feedback). -/
def hit_counts (sv : Solver) (g : Nat) : List Nat :=
  let ds := (candidatesList sv).map (fun other => Pattern.score g other)
  ds.map (fun d => ds.count d)

/-- The total version of `guess_score`: `|S|` minus the largest feedback
class of the candidate set under `g` (the claims' `eliminationScore`). -/
def guess_score_total (sv : Solver) (g : Nat) : Nat :=
  sv.s.len - (hit_counts sv g).max?.getD 0

/-- The running maximum of the `highest` fold over a list of guesses. -/
def top_score (sv : Solver) (l : List Nat) : Nat :=
  (l.map (guess_score_total sv)).foldl max 0

/-- The guesses of `l` attaining `top_score` (in order): the candidate
list accumulated by the `highest` fold. -/
def maximal_list (sv : Solver) (l : List Nat) : List Nat :=
  l.filter (fun p => guess_score_total sv p == top_score sv l)

end Solver

/-! ### Scorer analysis

The white-peg scan of `Pattern::score` is a greedy first-fit matching.
We show its consumed-position count equals a per-color sum of minima,
which yields the feedback bound (C7), the win condition (C6) and the
argument symmetry of the scorer (C10). -/

namespace Pattern

lemma colorsList_nodup : colorsList.Nodup := by decide

lemma to_digits_getD_mem (i pos : Nat) : (to_digits i).getD pos '1' ∈ colorsList := by
  have h6 : ∀ r, r < 6 → Char.ofNat ('1'.toNat + r) ∈ colorsList := by decide
  match pos with
  | 0 => exact h6 _ (Nat.mod_lt _ (by decide))
  | 1 => exact h6 _ (Nat.mod_lt _ (by decide))
  | 2 => exact h6 _ (Nat.mod_lt _ (by decide))
  | 3 => exact h6 _ (Nat.mod_lt _ (by decide))
  | (n + 4) => exact (by decide : '1' ∈ colorsList)

lemma contains_iff (l : List Nat) (p : Nat) : l.contains p = true ↔ p ∈ l := by
  simp [List.contains]

lemma char_beq_comm (x y : Char) : (x == y) = (y == x) := by
  cases h : x == y with
  | true => exact (beq_iff_eq.mpr (beq_iff_eq.mp h).symm).symm
  | false =>
    cases h' : y == x with
    | true => exact absurd (beq_iff_eq.mpr (beq_iff_eq.mp h').symm) (by simp [h])
    | false => rfl

lemma sum_map_congr {L : List Char} {f f' : Char → Nat}
    (h : ∀ c ∈ L, f c = f' c) : (L.map f).sum = (L.map f').sum := by
  induction L with
  | nil => rfl
  | cons d L ih =>
    simp only [List.map_cons, List.sum_cons]
    rw [h d (List.mem_cons_self _ _), ih (fun c hc => h c (List.mem_cons_of_mem _ hc))]

lemma sum_map_succ_at {L : List Char} (hnd : L.Nodup) {c0 : Char} (hc0 : c0 ∈ L)
    {f f' : Char → Nat} (hoff : ∀ c ∈ L, c ≠ c0 → f c = f' c)
    (hat : f c0 = f' c0 + 1) : (L.map f).sum = (L.map f').sum + 1 := by
  induction L with
  | nil => cases hc0
  | cons d L ih =>
    rcases List.mem_cons.mp hc0 with rfl | hc0'
    · have hrest : ∀ c ∈ L, f c = f' c := fun c hc =>
        hoff c (List.mem_cons_of_mem _ hc)
          (by rintro rfl; exact (List.nodup_cons.mp hnd).1 hc)
      simp only [List.map_cons, List.sum_cons, hat, sum_map_congr hrest]
      omega
    · have hd : d ≠ c0 := by rintro rfl; exact (List.nodup_cons.mp hnd).1 hc0'
      simp only [List.map_cons, List.sum_cons,
        hoff d (List.mem_cons_self _ _) hd,
        ih (List.nodup_cons.mp hnd).2 hc0'
          (fun c hc h' => hoff c (List.mem_cons_of_mem _ hc) h')]
      omega

lemma length_filter_range (n : Nat) (pB : Nat → Bool) :
    ((List.range n).filter pB).length =
      ((Finset.range n).filter (fun p => pB p = true)).card := by
  induction n with
  | zero => simp
  | succ n ih =>
    rw [List.range_succ, List.filter_append, List.length_append, ih, Finset.range_succ,
      Finset.filter_insert]
    by_cases h : pB n = true
    · rw [if_pos h, Finset.card_insert_of_not_mem (by simp), List.filter_cons_of_pos h]
      simp [Nat.add_comm]
    · rw [if_neg h, List.filter_cons_of_neg h]
      simp

lemma avail_append (x : List Char) (acc : List Nat) (spos : Nat) (c : Char) :
    avail x (acc ++ [spos]) c = (avail x acc c).erase spos := by
  ext p
  simp only [avail, Finset.mem_erase, Finset.mem_filter, List.mem_append,
    List.mem_singleton]
  constructor
  · rintro ⟨hr, hn, hc⟩
    exact ⟨fun h => hn (Or.inr h), hr, fun h => hn (Or.inl h), hc⟩
  · rintro ⟨hne, hr, hn, hc⟩
    exact ⟨hr, fun h => h.elim hn hne, hc⟩

/-- The greedy first-fit scan consumes, per color, the minimum of the
pending guess occurrences and the available secret occurrences. -/
lemma length_foldl_scan (s g : List Char)
    (hg : ∀ pos, g.getD pos '1' ∈ colorsList) (gu : List Nat) :
    ∀ (l : List Nat) (acc : List Nat),
      (l.foldl (scan_step s g gu) acc).length =
        acc.length +
          sumColors (fun c =>
            min ((l.filter (fun p => !(gu.contains p) && (g.getD p '1' == c))).length)
                ((avail s acc c).card)) := by
  intro l
  induction l with
  | nil =>
    intro acc
    simp [sumColors, colorsList]
  | cons gpos l ih =>
    intro acc
    rw [List.foldl_cons]
    by_cases hgu : gu.contains gpos = true
    · have hstep : scan_step s g gu acc gpos = acc := by
        unfold scan_step; rw [hgu]; simp
      rw [hstep, ih acc]
      congr 1
      apply sum_map_congr
      intro c _
      rw [List.filter_cons_of_neg (by rw [hgu]; simp)]
    · have hgu' : gu.contains gpos = false := by
        cases h : gu.contains gpos
        · rfl
        · exact absurd h hgu
      cases hfind : (List.range size).find?
          (fun spos => s.getD spos '1' == g.getD gpos '1' && !(acc.contains spos)) with
      | none =>
        have hstep : scan_step s g gu acc gpos = acc := by
          unfold scan_step; rw [hgu', hfind]; simp
        have hempty : avail s acc (g.getD gpos '1') = ∅ := by
          ext p
          simp only [avail, Finset.mem_filter, Finset.mem_range, Finset.not_mem_empty,
            iff_false, not_and]
          intro hp hnp hc
          have := List.find?_eq_none.mp hfind p (List.mem_range.mpr hp)
          simp only [Bool.and_eq_true, beq_iff_eq, Bool.not_eq_true'] at this
          exact this ⟨hc, by
            cases h : acc.contains p
            · rfl
            · exact absurd (contains_iff acc p |>.mp h) hnp⟩
        rw [hstep, ih acc]
        congr 1
        apply sum_map_congr
        intro c _
        by_cases hc : c = g.getD gpos '1'
        · subst hc
          rw [List.filter_cons_of_pos (by rw [hgu']; simp), hempty]
          simp
        · rw [List.filter_cons_of_neg (by
            rw [hgu']
            simp only [Bool.not_false, Bool.true_and, beq_iff_eq]
            exact fun h => hc h.symm)]
      | some spos =>
        have hstep : scan_step s g gu acc gpos = acc ++ [spos] := by
          unfold scan_step; rw [hgu', hfind]; simp
        have hpred := List.find?_some hfind
        simp only [Bool.and_eq_true, beq_iff_eq, Bool.not_eq_true'] at hpred
        obtain ⟨hcolor, hnotin⟩ := hpred
        have hsrange : spos < size := List.mem_range.mp (List.mem_of_find?_eq_some hfind)
        have hnacc : spos ∉ acc := by
          intro h
          have hc := (contains_iff acc spos).mpr h
          rw [hnotin] at hc
          exact Bool.noConfusion hc
        have hsmem : spos ∈ avail s acc (g.getD gpos '1') := by
          simp only [avail, Finset.mem_filter, Finset.mem_range]
          exact ⟨hsrange, hnacc, hcolor⟩
        have hpos : 1 ≤ (avail s acc (g.getD gpos '1')).card :=
          Finset.card_pos.mpr ⟨spos, hsmem⟩
        rw [hstep, ih (acc ++ [spos])]
        have hsum :
            sumColors (fun c =>
              min (((gpos :: l).filter
                      (fun p => !(gu.contains p) && (g.getD p '1' == c))).length)
                  ((avail s acc c).card)) =
            sumColors (fun c =>
              min ((l.filter (fun p => !(gu.contains p) && (g.getD p '1' == c))).length)
                  ((avail s (acc ++ [spos]) c).card)) + 1 := by
          apply sum_map_succ_at colorsList_nodup (hg gpos)
          · intro c _ hne
            rw [List.filter_cons_of_neg (by
              rw [hgu']
              simp only [Bool.not_false, Bool.true_and, beq_iff_eq]
              exact fun h => hne h.symm)]
            rw [avail_append, Finset.erase_eq_of_not_mem]
            intro hmem
            have : s.getD spos '1' = c := (Finset.mem_filter.mp hmem).2.2
            exact hne (by rw [← this, hcolor])
          · rw [List.filter_cons_of_pos (by rw [hgu']; simp), avail_append,
              Finset.card_erase_of_mem hsmem]
            simp only [List.length_cons]
            omega
        rw [hsum]
        simp only [List.length_append, List.length_singleton]
        omega

lemma remCount_eq_avail (x : List Char) (gu : List Nat) (c : Char) :
    ((List.range size).filter (fun p => !(gu.contains p) && (x.getD p '1' == c))).length =
      (avail x gu c).card := by
  rw [length_filter_range]
  congr 1
  apply Finset.filter_congr
  intro p _
  simp only [Bool.and_eq_true, Bool.not_eq_true', beq_iff_eq]
  constructor
  · rintro ⟨h1, h2⟩
    refine ⟨fun hm => ?_, h2⟩
    rw [(contains_iff gu p).mpr hm] at h1
    exact Bool.noConfusion h1
  · rintro ⟨h1, h2⟩
    refine ⟨?_, h2⟩
    cases h : gu.contains p
    · rfl
    · exact absurd ((contains_iff gu p).mp h) h1

lemma g_used_comm (s g : List Char) : g_used_list s g = g_used_list g s := by
  unfold g_used_list
  congr 1
  funext pos
  exact char_beq_comm _ _

set_option maxHeartbeats 1000000 in
/-- The consumed-position count of the scorer in closed form: blacks plus
a per-color minimum of pending guess colors and available secret colors. -/
lemma s_used_list_length (a b : Nat) :
    (s_used_list (to_digits a) (to_digits b)).length =
      (g_used_list (to_digits a) (to_digits b)).length +
        sumColors (fun c =>
          min ((avail (to_digits b) (g_used_list (to_digits a) (to_digits b)) c).card)
              ((avail (to_digits a) (g_used_list (to_digits a) (to_digits b)) c).card)) := by
  unfold s_used_list
  rw [length_foldl_scan (to_digits a) (to_digits b) (to_digits_getD_mem b)
    (g_used_list (to_digits a) (to_digits b)) (List.range size)
    (g_used_list (to_digits a) (to_digits b))]
  congr 1
  apply sum_map_congr
  intro c _
  rw [remCount_eq_avail]

lemma score_blacks_def (a b : Nat) :
    (score a b).blacks = (g_used_list (to_digits a) (to_digits b)).length := rfl

lemma score_whites_def (a b : Nat) :
    (score a b).whites =
      (s_used_list (to_digits a) (to_digits b)).length -
        (g_used_list (to_digits a) (to_digits b)).length := rfl

lemma score_whites_formula (a b : Nat) :
    (score a b).whites =
      sumColors (fun c =>
        min ((avail (to_digits b) (g_used_list (to_digits a) (to_digits b)) c).card)
            ((avail (to_digits a) (g_used_list (to_digits a) (to_digits b)) c).card)) := by
  rw [score_whites_def, s_used_list_length]
  omega

lemma KeyPegs.eq_of_fields {k1 k2 : KeyPegs} (h1 : k1.blacks = k2.blacks)
    (h2 : k1.whites = k2.whites) : k1 = k2 := by
  cases k1; cases k2; simp_all

/-- Per-color availability tallies partition the unmatched positions. -/
lemma sum_avail_card (x : List Char) (hx : ∀ pos, x.getD pos '1' ∈ colorsList)
    (gu : List Nat) :
    sumColors (fun c => (avail x gu c).card) =
      ((Finset.range size).filter (fun p => p ∉ gu)).card := by
  classical
  rw [Finset.card_eq_sum_card_fiberwise
    (f := fun p => x.getD p '1') (t := colorsList.toFinset)
    (fun p _ => List.mem_toFinset.mpr (hx p))]
  unfold sumColors
  rw [← List.sum_toFinset _ colorsList_nodup]
  apply Finset.sum_congr rfl
  intro c _
  rw [Finset.filter_filter]
  unfold avail
  congr 1

lemma filter_mem_gu_card (s g : List Char) :
    ((Finset.range size).filter (fun p => p ∈ g_used_list s g)).card =
      (g_used_list s g).length := by
  have hcongr : ((Finset.range size).filter (fun p => p ∈ g_used_list s g)) =
      ((Finset.range size).filter
        (fun p => (s.getD p '1' == g.getD p '1') = true)) := by
    apply Finset.filter_congr
    intro p hp
    unfold g_used_list
    simp only [List.mem_filter, List.mem_range]
    exact ⟨fun h => h.2, fun h => ⟨Finset.mem_range.mp hp, h⟩⟩
  rw [hcongr, ← length_filter_range]
  rfl

lemma blacks_add_unmatched (s g : List Char) :
    (g_used_list s g).length +
      ((Finset.range size).filter (fun p => p ∉ g_used_list s g)).card = size := by
  have h := Finset.filter_card_add_filter_neg_card_eq_card
    (s := Finset.range size) (p := fun p => p ∈ g_used_list s g)
  rw [filter_mem_gu_card, Finset.card_range] at h
  exact h

lemma score_blacks_le (a b : Nat) : (score a b).blacks ≤ size := by
  rw [score_blacks_def]
  have h := List.length_filter_le
    (fun pos => (to_digits a).getD pos '1' == (to_digits b).getD pos '1')
    (List.range size)
  rw [List.length_range] at h
  exact h

lemma score_totals_le (a b : Nat) :
    (score a b).blacks + (score a b).whites ≤ size := by
  rw [score_blacks_def, score_whites_formula]
  have hle : sumColors (fun c =>
        min ((avail (to_digits b) (g_used_list (to_digits a) (to_digits b)) c).card)
            ((avail (to_digits a) (g_used_list (to_digits a) (to_digits b)) c).card)) ≤
      sumColors (fun c =>
        (avail (to_digits a) (g_used_list (to_digits a) (to_digits b)) c).card) :=
    List.sum_le_sum (fun c _ => min_le_right _ _)
  have hpart := sum_avail_card (to_digits a) (to_digits_getD_mem a)
    (g_used_list (to_digits a) (to_digits b))
  have hsplit := blacks_add_unmatched (to_digits a) (to_digits b)
  omega

lemma g_used_self (x : List Char) : g_used_list x x = List.range size := by
  unfold g_used_list
  apply List.filter_eq_self.mpr
  intro a _
  simp

lemma foldl_scan_skip_all (s g : List Char) (gu : List Nat) :
    ∀ (l acc : List Nat), (∀ p ∈ l, gu.contains p = true) →
      l.foldl (scan_step s g gu) acc = acc := by
  intro l
  induction l with
  | nil => intro acc _; rfl
  | cons p l ih =>
    intro acc h
    rw [List.foldl_cons]
    have hstep : scan_step s g gu acc p = acc := by
      unfold scan_step; rw [h p (List.mem_cons_self _ _)]; simp
    rw [hstep]
    exact ih acc (fun q hq => h q (List.mem_cons_of_mem _ hq))

lemma s_used_self (x : List Char) : s_used_list x x = List.range size := by
  unfold s_used_list
  rw [g_used_self]
  apply foldl_scan_skip_all
  intro p hp
  exact (contains_iff _ _).mpr hp

lemma score_self (p : Nat) : score p p = ⟨4, 0⟩ := by
  apply KeyPegs.eq_of_fields
  · rw [score_blacks_def, g_used_self, List.length_range]
    rfl
  · rw [score_whites_def, g_used_self, s_used_self]
    simp

lemma blacks_four_imp_eq (a b : Nat) (ha : a < cardinality) (hb : b < cardinality)
    (h : (score a b).blacks = 4) : a = b := by
  have hsize : (g_used_list (to_digits a) (to_digits b)).length = (List.range size).length := by
    rw [List.length_range]
    rw [score_blacks_def] at h
    exact h
  have hfull : g_used_list (to_digits a) (to_digits b) = List.range size :=
    (List.filter_sublist _).eq_of_length hsize
  have hall : ∀ q, q ∈ List.range size →
      ((to_digits a).getD q '1' == (to_digits b).getD q '1') = true := by
    intro q hq
    have hmem : q ∈ g_used_list (to_digits a) (to_digits b) := hfull ▸ hq
    exact (List.mem_filter.mp hmem).2
  have hcinj : ∀ x : Nat, x < 6 → ∀ y : Nat, y < 6 →
      Char.ofNat ('1'.toNat + x) = Char.ofNat ('1'.toNat + y) → x = y := by decide
  have hca : a < 1296 := by
    have hc : cardinality = 1296 := by decide
    omega
  have hcb : b < 1296 := by
    have hc : cardinality = 1296 := by decide
    omega
  have d0 : Char.ofNat ('1'.toNat + a / 216 % 6) = Char.ofNat ('1'.toNat + b / 216 % 6) :=
    beq_iff_eq.mp (hall 0 (by decide))
  have d1 : Char.ofNat ('1'.toNat + a / 36 % 6) = Char.ofNat ('1'.toNat + b / 36 % 6) :=
    beq_iff_eq.mp (hall 1 (by decide))
  have d2 : Char.ofNat ('1'.toNat + a / 6 % 6) = Char.ofNat ('1'.toNat + b / 6 % 6) :=
    beq_iff_eq.mp (hall 2 (by decide))
  have d3 : Char.ofNat ('1'.toNat + a % 6) = Char.ofNat ('1'.toNat + b % 6) :=
    beq_iff_eq.mp (hall 3 (by decide))
  have e0 := hcinj _ (Nat.mod_lt _ (by decide)) _ (Nat.mod_lt _ (by decide)) d0
  have e1 := hcinj _ (Nat.mod_lt _ (by decide)) _ (Nat.mod_lt _ (by decide)) d1
  have e2 := hcinj _ (Nat.mod_lt _ (by decide)) _ (Nat.mod_lt _ (by decide)) d2
  have e3 := hcinj _ (Nat.mod_lt _ (by decide)) _ (Nat.mod_lt _ (by decide)) d3
  omega

/-- The builder assertions of `KeyPegs` never fire on the scorer's output:
`scoreChecked` always succeeds and returns exactly `score`. -/
lemma scoreChecked_eq_some (a b : Nat) : scoreChecked a b = some (score a b) := by
  have hB : (g_used_list (to_digits a) (to_digits b)).length ≤ size := by
    rw [← score_blacks_def]; exact score_blacks_le a b
  have hT : (g_used_list (to_digits a) (to_digits b)).length +
      ((s_used_list (to_digits a) (to_digits b)).length -
        (g_used_list (to_digits a) (to_digits b)).length) ≤ size := by
    rw [← score_whites_def, ← score_blacks_def]; exact score_totals_le a b
  unfold scoreChecked
  simp only [KeyPegs.new, KeyPegs.setBlacks]
  rw [if_pos (by simpa using hB)]
  simp only [Option.some_bind, KeyPegs.setWhites]
  rw [if_pos (by simpa using hT)]
  rfl

end Pattern

/-! ### Candidate set and solver analysis -/

namespace PatternSet

lemma mem_filter_with_foldl (pred : Nat → Bool) :
    ∀ (l : List Nat) (acc : Finset Nat) (q : Nat),
      (q ∈ l.foldl
        (fun acc p => if p ∈ acc ∧ pred p = false then acc.erase p else acc) acc) ↔
      (q ∈ acc ∧ (pred q = true ∨ q ∉ l)) := by
  intro l
  induction l with
  | nil => intro acc q; simp
  | cons p l ih =>
    intro acc q
    rw [List.foldl_cons, ih]
    rcases Bool.eq_false_or_eq_true (pred p) with hp | hp
    · rw [if_neg (fun h => by
        have h2 := h.2
        rw [hp] at h2
        exact Bool.noConfusion h2)]
      by_cases hpq : q = p
      · subst hpq
        simp [hp, List.mem_cons]
      · simp only [List.mem_cons, not_or]
        tauto
    · by_cases hacc : p ∈ acc
      · rw [if_pos ⟨hacc, hp⟩]
        by_cases hpq : q = p
        · subst hpq
          simp [Finset.mem_erase, hp, List.mem_cons]
        · simp only [Finset.mem_erase, ne_eq, hpq, not_false_eq_true, true_and,
            List.mem_cons, not_or]
      · rw [if_neg (fun h => hacc h.1)]
        by_cases hpq : q = p
        · subst hpq
          simp [hacc, hp]
        · simp only [List.mem_cons, not_or]
          tauto

/-- Membership after `filter_with`: a pattern of the universe survives
iff it was present and satisfies the predicate. -/
lemma mem_filter_with (ps : PatternSet) (pred : Nat → Bool) (q : Nat) :
    q ∈ (ps.filter_with pred).indexes ↔
      q ∈ ps.indexes ∧ (pred q = true ∨ ¬ q < Pattern.cardinality) := by
  unfold filter_with
  rw [mem_filter_with_foldl]
  rw [List.mem_range]

end PatternSet

namespace Solver

set_option maxRecDepth 4000 in
/-- Under a non-empty candidate set (with its universe invariant), the
per-guess scoring never hits its `expect` branch and computes the total
elimination score. -/
lemma guess_score_eq_total (sv : Solver) (hne : sv.s.indexes.Nonempty)
    (hsub : sv.s.indexes ⊆ Finset.range Pattern.cardinality) (g : Nat) :
    sv.guess_score g = some (guess_score_total sv g) := by
  have hlist : candidatesList sv ≠ [] := by
    obtain ⟨p, hp⟩ := hne
    intro hnil
    have hp1296 : p < Pattern.cardinality := Finset.mem_range.mp (hsub hp)
    have hpmem : p ∈ candidatesList sv := by
      unfold candidatesList
      rw [List.mem_filter]
      refine ⟨List.mem_range.mpr hp1296, ?_⟩
      unfold PatternSet.contains
      exact decide_eq_true hp
    rw [hnil] at hpmem
    cases hpmem
  have hhc : hit_counts sv g ≠ [] := by
    unfold hit_counts
    intro h
    rw [List.map_eq_nil_iff, List.map_eq_nil_iff] at h
    exact hlist h
  obtain ⟨m, hm⟩ : ∃ m, (hit_counts sv g).max? = some m := by
    cases h : (hit_counts sv g).max? with
    | none => exact absurd (List.max?_eq_none_iff.mp h) hhc
    | some m => exact ⟨m, rfl⟩
  show (match (hit_counts sv g).max? with
        | some highest_hit_count => some (sv.s.len - highest_hit_count)
        | none => none) = some (guess_score_total sv g)
  rw [hm]
  unfold guess_score_total
  rw [hm]
  rfl

end Solver

lemma le_foldl_max (l : List Nat) : ∀ a : Nat, a ≤ l.foldl max a := by
  induction l with
  | nil => intro a; exact Nat.le_refl a
  | cons x l ih =>
    intro a
    rw [List.foldl_cons]
    exact Nat.le_trans (Nat.le_max_left a x) (ih (max a x))

lemma foldl_max_le (l : List Nat) : ∀ (a x : Nat), x ∈ l → x ≤ l.foldl max a := by
  induction l with
  | nil => intro a x hx; cases hx
  | cons y l ih =>
    intro a x hx
    rw [List.foldl_cons]
    rcases List.mem_cons.mp hx with rfl | hx'
    · exact Nat.le_trans (Nat.le_max_right a x) (le_foldl_max l (max a x))
    · exact ih (max a y) x hx'

lemma foldl_max_eq_or_mem (l : List Nat) : ∀ a : Nat,
    l.foldl max a = a ∨ l.foldl max a ∈ l := by
  induction l with
  | nil => intro a; exact Or.inl rfl
  | cons x l ih =>
    intro a
    rw [List.foldl_cons]
    rcases ih (max a x) with h | h
    · rcases max_choice a x with hm | hm
      · exact Or.inl (h.trans hm)
      · right
        rw [h, hm]
        exact List.mem_cons_self _ _
    · exact Or.inr (List.mem_cons_of_mem _ h)

namespace Solver

lemma top_score_append (sv : Solver) (done : List Nat) (p : Nat) :
    top_score sv (done ++ [p]) =
      max (top_score sv done) (guess_score_total sv p) := by
  unfold top_score
  rw [List.map_append, List.foldl_append]
  rfl

lemma gst_le_top_score (sv : Solver) (done : List Nat) (x : Nat) (hx : x ∈ done) :
    guess_score_total sv x ≤ top_score sv done :=
  foldl_max_le _ _ _ (List.mem_map_of_mem _ hx)

lemma exists_top_score_attained (sv : Solver) (l : List Nat) (hl : l ≠ []) :
    ∃ x ∈ l, guess_score_total sv x = top_score sv l := by
  rcases foldl_max_eq_or_mem (l.map (guess_score_total sv)) 0 with h | h
  · obtain ⟨x, hx⟩ := List.exists_mem_of_ne_nil l hl
    refine ⟨x, hx, ?_⟩
    have h1 := gst_le_top_score sv l x hx
    have h2 : top_score sv l = 0 := h
    omega
  · obtain ⟨x, hx, hfx⟩ := List.mem_map.mp h
    exact ⟨x, hx, hfx⟩

lemma mem_maximal_list (sv : Solver) (l : List Nat) (x : Nat) :
    x ∈ maximal_list sv l ↔
      x ∈ l ∧ guess_score_total sv x = top_score sv l := by
  unfold maximal_list
  rw [List.mem_filter, beq_iff_eq]

lemma maximal_list_append (sv : Solver) (done : List Nat) (p : Nat) :
    maximal_list sv (done ++ [p]) =
      (if guess_score_total sv p > top_score sv done then [p]
       else if guess_score_total sv p = top_score sv done then maximal_list sv done ++ [p]
       else maximal_list sv done) := by
  unfold maximal_list
  rw [List.filter_append]
  rcases lt_trichotomy (top_score sv done) (guess_score_total sv p) with hlt | heq | hgt
  · rw [if_pos hlt]
    have htop : top_score sv (done ++ [p]) = guess_score_total sv p := by
      rw [top_score_append]
      exact Nat.max_eq_right (Nat.le_of_lt hlt)
    have hdone : done.filter
        (fun q => guess_score_total sv q == top_score sv (done ++ [p])) = [] := by
      apply List.filter_eq_nil_iff.mpr
      intro q hq
      rw [htop]
      have := gst_le_top_score sv done q hq
      simp only [beq_iff_eq]
      omega
    rw [hdone, htop]
    simp
  · rw [if_neg (by omega), if_pos heq.symm]
    have htop : top_score sv (done ++ [p]) = top_score sv done := by
      rw [top_score_append]
      omega
    rw [htop]
    congr 1
    rw [List.filter_cons_of_pos (by simp only [beq_iff_eq]; omega), List.filter_nil]
  · rw [if_neg (by omega), if_neg (by omega)]
    have htop : top_score sv (done ++ [p]) = top_score sv done := by
      rw [top_score_append]
      omega
    have hp : [p].filter
        (fun q => guess_score_total sv q == top_score sv (done ++ [p])) = [] := by
      apply List.filter_eq_nil_iff.mpr
      intro q hq
      rw [List.mem_singleton] at hq
      subst hq
      rw [htop]
      simp only [beq_iff_eq]
      omega
    rw [hp, htop, List.append_nil]

lemma highest_step_mk (sv : Solver) (hne : sv.s.indexes.Nonempty)
    (hsub : sv.s.indexes ⊆ Finset.range Pattern.cardinality)
    (done : List Nat) (p : Nat) :
    highest_step sv (top_score sv done, maximal_list sv done) p =
      some (top_score sv (done ++ [p]), maximal_list sv (done ++ [p])) := by
  unfold highest_step
  rw [guess_score_eq_total sv hne hsub p, Option.map_some']
  rcases lt_trichotomy (top_score sv done) (guess_score_total sv p) with hlt | heq | hgt
  · rw [if_pos hlt, maximal_list_append, top_score_append, if_pos hlt,
      Nat.max_eq_right (Nat.le_of_lt hlt)]
  · have hngt : ¬ guess_score_total sv p > top_score sv done := by omega
    rw [if_neg hngt, if_pos heq.symm, maximal_list_append, top_score_append,
      if_neg hngt, if_pos heq.symm]
    have hmax : max (top_score sv done) (guess_score_total sv p) = top_score sv done := by
      omega
    rw [hmax]
  · have hngt : ¬ guess_score_total sv p > top_score sv done := by omega
    have hne' : ¬ guess_score_total sv p = top_score sv done := by omega
    rw [if_neg hngt, if_neg hne', maximal_list_append, top_score_append,
      if_neg hngt, if_neg hne']
    have hmax : max (top_score sv done) (guess_score_total sv p) = top_score sv done := by
      omega
    rw [hmax]

lemma foldlM_highest (sv : Solver) (hne : sv.s.indexes.Nonempty)
    (hsub : sv.s.indexes ⊆ Finset.range Pattern.cardinality) :
    ∀ (l done : List Nat),
      l.foldlM (highest_step sv) (top_score sv done, maximal_list sv done) =
        some (top_score sv (done ++ l), maximal_list sv (done ++ l)) := by
  intro l
  induction l with
  | nil =>
    intro done
    rw [List.foldlM_nil, List.append_nil]
    rfl
  | cons p l ih =>
    intro done
    rw [List.foldlM_cons, highest_step_mk sv hne hsub done p]
    show List.foldlM (highest_step sv)
        (top_score sv (done ++ [p]), maximal_list sv (done ++ [p])) l =
      some (top_score sv (done ++ p :: l), maximal_list sv (done ++ p :: l))
    rw [ih (done ++ [p]), List.append_assoc, List.singleton_append]

lemma mem_unusedList (sv : Solver) (p : Nat) :
    p ∈ unusedList sv ↔ p < Pattern.cardinality ∧ p ∉ sv.guessed := by
  unfold unusedList
  rw [List.mem_filter, List.mem_range]
  constructor
  · rintro ⟨h1, h2⟩
    simp only [Bool.not_eq_true'] at h2
    refine ⟨h1, fun hmem => ?_⟩
    have hc := (Pattern.contains_iff sv.guessed p).mpr hmem
    rw [h2] at hc
    exact Bool.noConfusion hc
  · rintro ⟨h1, h2⟩
    refine ⟨h1, ?_⟩
    simp only [Bool.not_eq_true']
    cases hc : sv.guessed.contains p
    · rfl
    · exact absurd ((Pattern.contains_iff sv.guessed p).mp hc) h2

lemma best_guesses_eq (sv : Solver) (hne : sv.s.indexes.Nonempty)
    (hsub : sv.s.indexes ⊆ Finset.range Pattern.cardinality) :
    sv.best_guesses =
      some ((maximal_list sv (unusedList sv)).mergeSort (· ≤ ·)) := by
  have hlen : sv.s.len > 0 := Finset.card_pos.mpr hne
  unfold best_guesses
  rw [if_pos hlen]
  have hinit : ((0 : Nat), ([] : List Nat)) =
      (top_score sv [], maximal_list sv []) := rfl
  rw [hinit]
  rw [show ((List.range Pattern.cardinality).filter
      (fun p => !(sv.guessed.contains p))) = unusedList sv from rfl]
  rw [foldlM_highest sv hne hsub (unusedList sv) []]
  rw [List.nil_append]
  rfl

end Solver

end Mmind

/-! ### The claims -/

namespace Mmind

/-- C2: the round-trip law `from_digits (to_digits i) = i` FAILS on the
code: at index 5 (pattern `"1116"`), `'6'.to_digit(6)` is `None` in Rust,
so `from_digits` treats the digit `'6'` as `'1'` — contradicting the
documented behavior of `Pattern::from_digits` ("Construct a Pattern from
digits 1-6") — and the re-encoded index is 0, not 5. -/
theorem roundtrip_fails_at_five :
    Pattern.ith 5 = some 5 ∧
      Pattern.from_digits (Pattern.to_digits 5) = 0 ∧ (0 : Nat) ≠ 5 := by
  refine ⟨by decide, by decide, by decide⟩

/-- C3: `Pattern::ith` does NOT fail fast on every out-of-range index:
its assertion is `lex_ix <= cardinality()`, so the out-of-range index
1296 (`= cardinality`) is accepted and wrapped instead of rejected. -/
theorem ith_accepts_index_1296 :
    Pattern.cardinality = 1296 ∧ Pattern.ith 1296 = some 1296 ∧
      Pattern.ith 1297 = none := by
  refine ⟨by decide, by decide, by decide⟩

/-- C6: every pattern scores `⟨4, 0⟩` against itself, and a feedback with
four blacks arises exactly between identical patterns (the win condition
is unique). -/
theorem self_score_and_win_unique :
    (∀ p : Nat, p < Pattern.cardinality → Pattern.score p p = ⟨4, 0⟩) ∧
      (∀ a b : Nat, a < Pattern.cardinality → b < Pattern.cardinality →
        ((Pattern.score a b).blacks = 4 ↔ a = b)) := by
  constructor
  · intro p _
    exact Pattern.score_self p
  · intro a b ha hb
    constructor
    · exact Pattern.blacks_four_imp_eq a b ha hb
    · rintro rfl
      rw [Pattern.score_self a]

/-- Witness for C6 at concrete inputs. -/
theorem self_score_and_win_unique_witness :
    Pattern.score 3 3 = ⟨4, 0⟩ ∧ ((Pattern.score 1 2).blacks = 4 ↔ 1 = 2) :=
  ⟨self_score_and_win_unique.1 3 (by decide),
   self_score_and_win_unique.2 1 2 (by decide) (by decide)⟩

/-- C7: for any two patterns of the universe the feedback produced by
`score` satisfies `blacks + whites ≤ 4`, and hence the assertions in the
`KeyPegs::blacks`/`KeyPegs::whites` builders never fire on it
(`scoreChecked` succeeds and agrees with `score`). -/
theorem feedback_totals_bound (a b : Nat) (ha : a < Pattern.cardinality)
    (hb : b < Pattern.cardinality) :
    (Pattern.score a b).blacks + (Pattern.score a b).whites ≤ 4 ∧
      Pattern.scoreChecked a b = some (Pattern.score a b) :=
  ⟨Pattern.score_totals_le a b, Pattern.scoreChecked_eq_some a b⟩

/-- Witness for C7 at a concrete input with duplicate colors. -/
theorem feedback_totals_bound_witness :
    (Pattern.score 7 43).blacks + (Pattern.score 7 43).whites ≤ 4 ∧
      Pattern.scoreChecked 7 43 = some (Pattern.score 7 43) :=
  feedback_totals_bound 7 43 (by decide) (by decide)

/-- C4: with a non-empty candidate set (and some unguessed pattern left),
`next_guess` returns a not-yet-guessed pattern `g` of the full universe
that maximizes the elimination score `|S| - (largest feedback class)`
over all unguessed patterns; among the maximizers it returns a live
candidate whenever one exists, and otherwise the numerically smallest. -/
theorem next_guess_minimax (sv : Solver)
    (hne : sv.s.indexes.Nonempty)
    (hsub : sv.s.indexes ⊆ Finset.range Pattern.cardinality)
    (hu : Solver.unusedList sv ≠ []) :
    (∀ p, p ∈ Solver.unusedList sv ↔ p < Pattern.cardinality ∧ p ∉ sv.guessed) ∧
    ∃ g, sv.next_guess = some g ∧ g ∈ Solver.unusedList sv ∧
      (∀ p, p ∈ Solver.unusedList sv →
        Solver.guess_score_total sv p ≤ Solver.guess_score_total sv g) ∧
      ((∃ q, q ∈ Solver.unusedList sv ∧
          Solver.guess_score_total sv q = Solver.guess_score_total sv g ∧
          q ∈ sv.s.indexes) → g ∈ sv.s.indexes) ∧
      ((¬ ∃ q, q ∈ Solver.unusedList sv ∧
          Solver.guess_score_total sv q = Solver.guess_score_total sv g ∧
          q ∈ sv.s.indexes) →
        ∀ q, q ∈ Solver.unusedList sv →
          Solver.guess_score_total sv q = Solver.guess_score_total sv g → g ≤ q) := by
  refine ⟨Solver.mem_unusedList sv, ?_⟩
  have hbg := Solver.best_guesses_eq sv hne hsub
  obtain ⟨x0, hx0L, hx0T⟩ := Solver.exists_top_score_attained sv (Solver.unusedList sv) hu
  have hBmem : ∀ x, x ∈ (Solver.maximal_list sv (Solver.unusedList sv)).mergeSort (· ≤ ·) ↔
      x ∈ Solver.unusedList sv ∧
        Solver.guess_score_total sv x = Solver.top_score sv (Solver.unusedList sv) := by
    intro x
    rw [List.mem_mergeSort, Solver.mem_maximal_list]
  have hBne : (Solver.maximal_list sv (Solver.unusedList sv)).mergeSort (· ≤ ·) ≠ [] := by
    intro h
    have hm := (hBmem x0).mpr ⟨hx0L, hx0T⟩
    rw [h] at hm
    cases hm
  unfold Solver.next_guess
  rw [hbg, Option.some_bind]
  cases hfind : ((Solver.maximal_list sv (Solver.unusedList sv)).mergeSort (· ≤ ·)).find?
      (fun g => sv.s.contains g) with
  | some g =>
    have hpred : sv.s.contains g = true := List.find?_some hfind
    have hgB : g ∈ (Solver.maximal_list sv (Solver.unusedList sv)).mergeSort (· ≤ ·) :=
      List.mem_of_find?_eq_some hfind
    have hgS : g ∈ sv.s.indexes := of_decide_eq_true hpred
    obtain ⟨hgL, hgT⟩ := (hBmem g).mp hgB
    refine ⟨g, rfl, hgL, ?_, ?_, ?_⟩
    · intro p hp
      rw [hgT]
      exact Solver.gst_le_top_score sv _ p hp
    · intro _
      exact hgS
    · intro hno
      exact absurd ⟨g, hgL, rfl, hgS⟩ hno
  | none =>
    have hnone := List.find?_eq_none.mp hfind
    obtain ⟨g, B', hgB'⟩ :=
      List.exists_cons_of_ne_nil hBne
    have hgB : g ∈ (Solver.maximal_list sv (Solver.unusedList sv)).mergeSort (· ≤ ·) := by
      rw [hgB']
      exact List.mem_cons_self _ _
    obtain ⟨hgL, hgT⟩ := (hBmem g).mp hgB
    have hsorted : List.Pairwise (fun a b : Nat => decide (a ≤ b) = true)
        ((Solver.maximal_list sv (Solver.unusedList sv)).mergeSort (· ≤ ·)) := by
      apply List.sorted_mergeSort
      · intro a b c hab hbc
        exact decide_eq_true (Nat.le_trans (of_decide_eq_true hab) (of_decide_eq_true hbc))
      · intro a b
        rcases Nat.le_total a b with h | h
        · simp [h]
        · simp [h]
    refine ⟨g, ?_, hgL, ?_, ?_, ?_⟩
    · rw [hgB']
      rfl
    · intro p hp
      rw [hgT]
      exact Solver.gst_le_top_score sv _ p hp
    · rintro ⟨q, hqL, hqT, hqS⟩
      exfalso
      have hqB := (hBmem q).mpr ⟨hqL, by rw [hqT, hgT]⟩
      exact (hnone q hqB) (decide_eq_true hqS)
    · intro _ q hqL hqT
      have hqB := (hBmem q).mpr ⟨hqL, by rw [hqT, hgT]⟩
      rw [hgB'] at hqB
      rcases List.mem_cons.mp hqB with rfl | hq'
      · exact Nat.le_refl _
      · have hpair := List.pairwise_cons.mp (hgB' ▸ hsorted)
        exact of_decide_eq_true (hpair.1 q hq')

/-- Witness for C4 on a freshly constructed solver. -/
theorem next_guess_minimax_witness :
    (∀ p, p ∈ Solver.unusedList (Solver.new (fun _ => KeyPegs.new)) ↔
        p < Pattern.cardinality ∧ p ∉ (Solver.new (fun _ => KeyPegs.new)).guessed) ∧
    ∃ g, (Solver.new (fun _ => KeyPegs.new)).next_guess = some g ∧
      g ∈ Solver.unusedList (Solver.new (fun _ => KeyPegs.new)) ∧
      (∀ p, p ∈ Solver.unusedList (Solver.new (fun _ => KeyPegs.new)) →
        Solver.guess_score_total (Solver.new (fun _ => KeyPegs.new)) p ≤
          Solver.guess_score_total (Solver.new (fun _ => KeyPegs.new)) g) ∧
      ((∃ q, q ∈ Solver.unusedList (Solver.new (fun _ => KeyPegs.new)) ∧
          Solver.guess_score_total (Solver.new (fun _ => KeyPegs.new)) q =
            Solver.guess_score_total (Solver.new (fun _ => KeyPegs.new)) g ∧
          q ∈ (Solver.new (fun _ => KeyPegs.new)).s.indexes) →
        g ∈ (Solver.new (fun _ => KeyPegs.new)).s.indexes) ∧
      ((¬ ∃ q, q ∈ Solver.unusedList (Solver.new (fun _ => KeyPegs.new)) ∧
          Solver.guess_score_total (Solver.new (fun _ => KeyPegs.new)) q =
            Solver.guess_score_total (Solver.new (fun _ => KeyPegs.new)) g ∧
          q ∈ (Solver.new (fun _ => KeyPegs.new)).s.indexes) →
        ∀ q, q ∈ Solver.unusedList (Solver.new (fun _ => KeyPegs.new)) →
          Solver.guess_score_total (Solver.new (fun _ => KeyPegs.new)) q =
            Solver.guess_score_total (Solver.new (fun _ => KeyPegs.new)) g → g ≤ q) :=
  next_guess_minimax (Solver.new (fun _ => KeyPegs.new))
    ⟨0, Finset.mem_range.mpr (by decide)⟩
    (Finset.Subset.refl _)
    (by
      intro h
      have he : Solver.unusedList (Solver.new (fun _ => KeyPegs.new)) =
          List.range Pattern.cardinality := by
        unfold Solver.unusedList
        apply List.filter_eq_self.mpr
        intro a _
        rfl
      rw [he] at h
      have h0 : (0 : Nat) ∈ List.range Pattern.cardinality :=
        List.mem_range.mpr (by decide)
      rw [h] at h0
      cases h0)

/-- C5: `retain_same_response r` with last guess `g` succeeds and keeps
exactly the previous members `p` with `score g p = r`; in particular the
candidate set never gains a member and its size is non-increasing. -/
theorem retain_same_response_exact (sv : Solver) (r : KeyPegs) (g : Nat)
    (hlast : sv.guessed.getLast? = some g)
    (hsub : sv.s.indexes ⊆ Finset.range Pattern.cardinality) :
    ∃ sv', sv.retain_same_response r = some sv' ∧
      (∀ p, p ∈ sv'.s.indexes ↔ p ∈ sv.s.indexes ∧ Pattern.score g p = r) ∧
      sv'.s.len ≤ sv.s.len := by
  refine ⟨{ sv with
      s := sv.s.filter_with (fun p => Pattern.score g p == r) }, ?_, ?_, ?_⟩
  · unfold Solver.retain_same_response Solver.last_guess
    rw [hlast]
    rfl
  · intro p
    rw [PatternSet.mem_filter_with]
    constructor
    · rintro ⟨hp, hor⟩
      rcases hor with hpred | hnot
      · exact ⟨hp, beq_iff_eq.mp hpred⟩
      · exact absurd (Finset.mem_range.mp (hsub hp)) hnot
    · rintro ⟨hp, heq⟩
      exact ⟨hp, Or.inl (beq_iff_eq.mpr heq)⟩
  · show (sv.s.filter_with (fun p => Pattern.score g p == r)).indexes.card ≤
      sv.s.indexes.card
    apply Finset.card_le_card
    intro p hp
    rw [PatternSet.mem_filter_with] at hp
    exact hp.1

/-- Witness for C5 on a concrete one-guess solver state. -/
theorem retain_same_response_exact_witness :
    ∃ sv', (Solver.mk (fun _ => KeyPegs.new) [7] PatternSet.all).retain_same_response
        ⟨0, 0⟩ = some sv' ∧
      (∀ p, p ∈ sv'.s.indexes ↔
        p ∈ (Solver.mk (fun _ => KeyPegs.new) [7] PatternSet.all).s.indexes ∧
          Pattern.score 7 p = ⟨0, 0⟩) ∧
      sv'.s.len ≤ (Solver.mk (fun _ => KeyPegs.new) [7] PatternSet.all).s.len :=
  retain_same_response_exact _ ⟨0, 0⟩ 7 rfl (Finset.Subset.refl _)

/-- C8: `best_guesses` fails fast (panics, modelled as `none`) when the
candidate set is empty; and when the candidate set is non-empty the
`expect` inside the per-guess scoring is unreachable: `guess_score`
returns a value for every guess. -/
theorem empty_candidate_set_fatal (sv : Solver) :
    (sv.s.len = 0 → sv.best_guesses = none) ∧
    (sv.s.indexes.Nonempty → sv.s.indexes ⊆ Finset.range Pattern.cardinality →
      ∀ g, (sv.guess_score g).isSome = true) := by
  constructor
  · intro h
    unfold Solver.best_guesses
    rw [h]
    simp
  · intro hne hsub g
    rw [Solver.guess_score_eq_total sv hne hsub g]
    rfl

/-- Witness for C8: the empty-set panic on a concrete solver, and a
successful `guess_score` on a concrete non-empty solver. -/
theorem empty_candidate_set_fatal_witness :
    (Solver.mk (fun _ => KeyPegs.new) [] ⟨∅⟩).best_guesses = none ∧
      ((Solver.mk (fun _ => KeyPegs.new) [] ⟨{0}⟩).guess_score 7).isSome = true :=
  ⟨(empty_candidate_set_fatal (Solver.mk (fun _ => KeyPegs.new) [] ⟨∅⟩)).1 rfl,
   (empty_candidate_set_fatal (Solver.mk (fun _ => KeyPegs.new) [] ⟨{0}⟩)).2
     ⟨0, Finset.mem_singleton_self 0⟩
     (fun x hx => by
       rw [Finset.mem_singleton] at hx
       subst hx
       exact Finset.mem_range.mpr (by decide)) 7⟩

/-- C9: the first `play()` of a freshly constructed solver returns the
fixed opening guess 1122 for every oracle, records it as the sole (first)
element of the guess history, and does not depend on the oracle (two
fresh solvers over different oracles produce identical first results). -/
theorem opening_guess_deterministic :
    (∀ codemaker : Nat → KeyPegs,
      (Solver.new codemaker).play =
        some (some Solver.initial_guess,
          { codemaker := codemaker, guessed := [Solver.initial_guess],
            s := PatternSet.all }) ∧
      Solver.initial_guess = Pattern.from_digits ['1', '1', '2', '2']) ∧
    (∀ o1 o2 : Nat → KeyPegs,
      ((Solver.new o1).play).map Prod.fst = ((Solver.new o2).play).map Prod.fst) := by
  constructor
  · intro codemaker
    exact ⟨rfl, rfl⟩
  · intro o1 o2
    rfl

/-- C10: the scorer is symmetric in its two arguments on the whole
universe: `a.score(b) = b.score(a)` (both peg counts agree). -/
theorem score_arg_symmetric (a b : Nat) (ha : a < Pattern.cardinality)
    (hb : b < Pattern.cardinality) :
    Pattern.score a b = Pattern.score b a := by
  apply Pattern.KeyPegs.eq_of_fields
  · rw [Pattern.score_blacks_def, Pattern.score_blacks_def, Pattern.g_used_comm]
  · rw [Pattern.score_whites_formula, Pattern.score_whites_formula,
      Pattern.g_used_comm (Pattern.to_digits b) (Pattern.to_digits a)]
    apply Pattern.sum_map_congr
    intro c _
    exact Nat.min_comm _ _

/-- Witness for C10 at a concrete asymmetric-looking input. -/
theorem score_arg_symmetric_witness :
    Pattern.score 7 1295 = Pattern.score 1295 7 :=
  score_arg_symmetric 7 1295 (by decide) (by decide)

end Mmind

-- sanity examples (scorer fixtures from the repository's tests)
example : Mmind.Pattern.from_digits ['1', '1', '2', '2'] = 7 := by decide
example : Mmind.Pattern.score (Mmind.Pattern.from_digits ['1', '2', '3', '4'])
    (Mmind.Pattern.from_digits ['2', '5', '5', '5']) = ⟨0, 1⟩ := by decide
example : Mmind.Pattern.score (Mmind.Pattern.from_digits ['1', '1', '2', '2'])
    (Mmind.Pattern.from_digits ['1', '1', '1', '2']) = ⟨3, 0⟩ := by decide
example : Mmind.Pattern.from_digits (Mmind.Pattern.to_digits 5) = 0 := by decide
